import Mathlib

/-!
Verification of the Royal Game of Ur rules engine (`ur.cpp`).

The core of the program is embedded shallowly:
* `Side` mirrors `struct _Side` (a `uint16_t` pile count and a
  `std::bitset<16>` of path occupancy), with the bitset represented as a
  natural number and bit `i` read through `Nat.testBit`.
* `getOptions` mirrors the legal-move generator (ur.cpp lines 91-104).
* `apply` mirrors the move applier (ur.cpp lines 112-135); the `uint8_t`
  destination wraps modulo 256 and the `uint16_t` pile counters wrap
  modulo 65536, exactly as the C++ unsigned arithmetic does.
* `_verifySides` mirrors the validity checker (ur.cpp lines 181-184).
-/

namespace Ur

/-- TILES, the number of starting tiles per player (ur.cpp line 58). -/
def TILES : Nat := 7

/-- One player's side of the board, mirroring `struct _Side` (ur.cpp lines
42-49): `remaining` is the `uint16_t` count of tiles still in the starting
pile and `occupied` is the 16-bit occupancy bitset (bit 15 unused, bit 0
redundant with `remaining`), stored as a natural number below `2 ^ 16`. -/
structure Side where
  remaining : Nat
  occupied : Nat
deriving DecidableEq

/-- START, the initial side `{TILES, 1}`: a full pile and only bit 0 set
(ur.cpp line 61). -/
def START : Side := ⟨TILES, 1⟩

/-- getOptions (ur.cpp lines 91-104): bit `i` of the result is set iff a move
of `steps` cells starting at position `i` is valid.  The four `&=` steps of
the source are translated literally; the C++ bitset complement `~x` is the
xor with `0xFFFF`, and `options &= 0xFFFF >> steps` is the final mask. -/
def getOptions (self other : Side) (steps : Nat) : Nat :=
  (((0x7FFF &&& self.occupied)
      &&& (0xFFFF ^^^ (self.occupied &&& (self.occupied >>> steps))))
      &&& (0xFFFF ^^^ (0x0100 &&& other.occupied)))
      &&& (0xFFFF >>> steps)

/-- Phase 1 of apply (ur.cpp lines 115-120): pick the moved piece up from
`start`.  For `start = 0` the `uint16_t` pile count is decremented (wrapping
modulo 65536, as `self.remaining--` does) and bit 0 is cleared once the pile
has emptied; otherwise bit `start` is reset.  The C++ `bitset::reset` is the
conjunction with the 16-bit complement of the bit. -/
def pickUp (self : Side) (start : Nat) : Side :=
  if start = 0 then
    { remaining := (self.remaining + 65535) % 65536,
      occupied :=
        if (self.remaining + 65535) % 65536 = 0 then self.occupied &&& 0xFFFE
        else self.occupied }
  else
    { remaining := self.remaining,
      occupied := self.occupied &&& (0xFFFF ^^^ 2 ^ start) }

/-- Phase 2 of apply (ur.cpp line 122): place the piece at the destination
`e` when `e < 15`; a piece reaching exactly 15 is borne off and leaves no
occupancy bit. -/
def place (self : Side) (e : Nat) : Side :=
  if e < 15 then { remaining := self.remaining, occupied := self.occupied ||| 2 ^ e }
  else self

/-- Phase 3 of apply (ur.cpp lines 127-131): when the destination `e` lies in
the shared middle lane `5 ≤ e ≤ 12` and the opponent occupies it, the
opponent's piece is sent back: bit `e` is reset, the opponent's pile count is
incremented (wrapping modulo 65536) and bit 0 is set. -/
def capture (other : Side) (e : Nat) : Side :=
  if 5 ≤ e ∧ e ≤ 12 ∧ other.occupied.testBit e = true then
    { remaining := (other.remaining + 1) % 65536,
      occupied := (other.occupied &&& (0xFFFF ^^^ 2 ^ e)) ||| 1 }
  else other

/-- apply (ur.cpp lines 112-135): compute the `uint8_t` destination
`e = start + steps` (wrapping modulo 256), pick the piece up, place it at
`e`, resolve a capture, and report whether `e` is one of the rosette cells
4, 8, 14 (ur.cpp line 134).  Returns the updated pair `(self, other)` and
the go-again flag. -/
def apply (self other : Side) (start steps : Nat) : Side × Side × Bool :=
  let e := (start + steps) % 256
  (place (pickUp self start) e, capture other e, (e == 4) || (e == 8) || (e == 14))

/-- _verifySides (ur.cpp lines 181-184): the game state is valid iff the two
occupancy bitsets share no position inside the mask `0x1FE0`, which covers
the middle-lane positions 5 through 12. -/
def _verifySides (self other : Side) : Bool :=
  (self.occupied &&& other.occupied &&& 0x1FE0) == 0

/-- Number of pieces a side has on the board proper: the set bits of an
occupancy bitset among positions 1 through 14 (bit 0 is the pile flag and
bit 15 is unused, so neither is a board piece). -/
def onBoard (occ : Nat) : Nat :=
  ((Finset.Icc 1 14).filter (fun p => occ.testBit p = true)).card

/-- Modelled from the spec (section 4.4): the property the spec claims
`_verifySides` decides, namely that no shared middle-lane position 5-12
other than the central rosette cell 8 is occupied by both sides. -/
@[reducible] def noSharedMidExceptCentral (self other : Side) : Prop :=
  ∀ p ∈ Finset.Icc 5 12, p ≠ 8 →
    ¬(self.occupied.testBit p = true ∧ other.occupied.testBit p = true)

/-! ### Bit-level helper lemmas -/

theorem testBit_FFFF (q : Nat) : Nat.testBit 0xFFFF q = decide (q < 16) := by
  have h : (0xFFFF : Nat) = 2 ^ 16 - 1 := by norm_num
  rw [h, Nat.testBit_two_pow_sub_one]

theorem testBit_7FFF (q : Nat) : Nat.testBit 0x7FFF q = decide (q < 15) := by
  have h : (0x7FFF : Nat) = 2 ^ 15 - 1 := by norm_num
  rw [h, Nat.testBit_two_pow_sub_one]

theorem testBit_FFFE {q : Nat} (h1 : 1 ≤ q) (h2 : q < 16) :
    Nat.testBit 0xFFFE q = true := by
  have h : (0xFFFE : Nat) = 0xFFFF ^^^ 2 ^ 0 := by decide
  rw [h, Nat.testBit_xor, testBit_FFFF, Nat.testBit_two_pow]
  have hq : ¬(0 = q) := by omega
  simp [h2, hq]

theorem testBit_1FE0 (q : Nat) :
    Nat.testBit 0x1FE0 q = (decide (5 ≤ q) && decide (q ≤ 12)) := by
  have h : (0x1FE0 : Nat) = (2 ^ 13 - 1) ^^^ (2 ^ 5 - 1) := by decide
  rw [h, Nat.testBit_xor, Nat.testBit_two_pow_sub_one, Nat.testBit_two_pow_sub_one]
  by_cases h1 : q < 5 <;> by_cases h2 : q < 13 <;>
    simp [h1, h2] <;> omega

theorem testBit_one {q : Nat} (h : 1 ≤ q) : Nat.testBit 1 q = false := by
  have h0 : (1 : Nat) = 2 ^ 0 := by norm_num
  rw [h0, Nat.testBit_two_pow]
  simp
  omega

/-- Membership in the bitset produced by `getOptions` forces the four
legality conditions of ur.cpp lines 94-102 that concern the mover: the piece
exists at `p`, the destination is not self-occupied, `p` is on-path, and the
destination does not overshoot position 15. -/
theorem mem_getOptions {self other : Side} {steps p : Nat}
    (h : (getOptions self other steps).testBit p = true) :
    self.occupied.testBit p = true ∧ self.occupied.testBit (p + steps) = false ∧
      p ≤ 14 ∧ p + steps ≤ 15 := by
  unfold getOptions at h
  simp only [Nat.testBit_and, Nat.testBit_xor, Nat.testBit_shiftRight,
    testBit_FFFF, testBit_7FFF, Bool.and_eq_true] at h
  obtain ⟨⟨⟨⟨ha, hb⟩, hX⟩, hY⟩, hZ⟩ := h
  have hp : p < 15 := of_decide_eq_true ha
  have hz : steps + p < 16 := of_decide_eq_true hZ
  have hp16 : p < 16 := by omega
  refine ⟨hb, ?_, by omega, by omega⟩
  rw [decide_eq_true hp16] at hX
  rw [Nat.add_comm]
  cases hpe : self.occupied.testBit (steps + p) with
  | false => rfl
  | true => simp [hb, hpe] at hX

/-- A legal move always uses a strictly positive roll: with `steps = 0` the
self-collision mask of ur.cpp line 98 empties the option set. -/
theorem mem_getOptions_steps_pos {self other : Side} {steps p : Nat}
    (h : (getOptions self other steps).testBit p = true) : 1 ≤ steps := by
  obtain ⟨h1, h2, -, -⟩ := mem_getOptions h
  by_contra hs
  have h0 : steps = 0 := by omega
  rw [h0, Nat.add_zero] at h2
  rw [h1] at h2
  simp at h2

/-! ### Counting lemmas for the on-board piece count -/

/-- Setting a fresh bit in positions 1-14 adds one on-board piece. -/
theorem onBoard_or_two_pow {occ e : Nat} (h1 : 1 ≤ e) (h2 : e ≤ 14)
    (h : occ.testBit e = false) :
    onBoard (occ ||| 2 ^ e) = onBoard occ + 1 := by
  unfold onBoard
  have hset : (Finset.Icc 1 14).filter (fun p => (occ ||| 2 ^ e).testBit p = true)
      = insert e ((Finset.Icc 1 14).filter (fun p => occ.testBit p = true)) := by
    ext q
    simp only [Finset.mem_filter, Finset.mem_insert, Finset.mem_Icc,
      Nat.testBit_or, Nat.testBit_two_pow, Bool.or_eq_true, decide_eq_true_eq]
    constructor
    · rintro ⟨hq, hocc | heq⟩
      · exact Or.inr ⟨hq, hocc⟩
      · exact Or.inl heq.symm
    · rintro (rfl | ⟨hq, hocc⟩)
      · exact ⟨⟨h1, h2⟩, Or.inr rfl⟩
      · exact ⟨hq, Or.inl hocc⟩
  rw [hset, Finset.card_insert_of_not_mem]
  simp [Finset.mem_filter, h]

/-- Resetting a set bit in positions 1-14 removes one on-board piece. -/
theorem onBoard_reset_two_pow {occ e : Nat} (h1 : 1 ≤ e) (h2 : e ≤ 14)
    (h : occ.testBit e = true) :
    onBoard (occ &&& (0xFFFF ^^^ 2 ^ e)) + 1 = onBoard occ := by
  unfold onBoard
  have hers : (Finset.Icc 1 14).filter
        (fun p => (occ &&& (0xFFFF ^^^ 2 ^ e)).testBit p = true)
      = ((Finset.Icc 1 14).filter (fun p => occ.testBit p = true)).erase e := by
    ext q
    simp only [Finset.mem_filter, Finset.mem_erase, Finset.mem_Icc,
      Nat.testBit_and, Nat.testBit_xor, testBit_FFFF, Nat.testBit_two_pow,
      Bool.and_eq_true]
    constructor
    · rintro ⟨hq, hocc, hx⟩
      have hq16 : q < 16 := by omega
      rw [decide_eq_true hq16] at hx
      refine ⟨?_, hq, hocc⟩
      intro hqe
      rw [hqe] at hx
      simp at hx
    · rintro ⟨hne, hq, hocc⟩
      have hq16 : q < 16 := by omega
      rw [decide_eq_true hq16]
      refine ⟨hq, hocc, ?_⟩
      have hnee : ¬(e = q) := fun hcontra => hne hcontra.symm
      simp [hnee]
  rw [hers, Finset.card_erase_add_one]
  simp only [Finset.mem_filter, Finset.mem_Icc]
  exact ⟨⟨h1, h2⟩, h⟩

/-- Clearing the pile-entry bit 0 does not change the on-board count. -/
theorem onBoard_and_FFFE (occ : Nat) : onBoard (occ &&& 0xFFFE) = onBoard occ := by
  unfold onBoard
  congr 1
  apply Finset.filter_congr
  intro q hq
  simp only [Finset.mem_Icc] at hq
  rw [Nat.testBit_and, testBit_FFFE hq.1 (by omega)]
  simp

/-- Setting the pile-entry bit 0 does not change the on-board count. -/
theorem onBoard_or_one (occ : Nat) : onBoard (occ ||| 1) = onBoard occ := by
  unfold onBoard
  congr 1
  apply Finset.filter_congr
  intro q hq
  simp only [Finset.mem_Icc] at hq
  rw [Nat.testBit_or, testBit_one hq.1]
  simp

/-! ### Characterization of the three phases of apply -/

/-- The pick-up phase never adds occupancy bits. -/
theorem pickUp_occ_le {self : Side} {start p : Nat}
    (h : (pickUp self start).occupied.testBit p = true) :
    self.occupied.testBit p = true := by
  unfold pickUp at h
  split at h
  · dsimp only at h
    split at h
    · simp only [Nat.testBit_and, Bool.and_eq_true] at h
      exact h.1
    · exact h
  · simp only [Nat.testBit_and, Bool.and_eq_true] at h
    exact h.1

/-- The pick-up phase for a pile entry keeps the on-board count. -/
theorem pickUp_zero_onBoard (self : Side) :
    onBoard (pickUp self 0).occupied = onBoard self.occupied := by
  unfold pickUp
  rw [if_pos rfl]
  dsimp only
  split
  · exact onBoard_and_FFFE self.occupied
  · rfl

/-- The pick-up phase for a board move removes one on-board piece. -/
theorem pickUp_pos_onBoard {self : Side} {start : Nat} (h1 : 1 ≤ start)
    (h2 : start ≤ 14) (h : self.occupied.testBit start = true) :
    onBoard (pickUp self start).occupied + 1 = onBoard self.occupied := by
  have h0 : ¬(start = 0) := by omega
  unfold pickUp
  rw [if_neg h0]
  exact onBoard_reset_two_pow h1 h2 h

/-- The place phase below 15 sets exactly the destination bit. -/
theorem place_occ {self : Side} {e p : Nat} (he : e < 15) :
    (place self e).occupied.testBit p =
      (self.occupied.testBit p || decide (e = p)) := by
  unfold place
  rw [if_pos he, Nat.testBit_or, Nat.testBit_two_pow]

/-- The place phase at 15 or beyond changes nothing. -/
theorem place_of_ge {self : Side} {e : Nat} (he : ¬e < 15) : place self e = self := by
  unfold place
  rw [if_neg he]

/-- The capture phase does nothing when its guard fails. -/
theorem capture_of_neg {other : Side} {e : Nat}
    (h : ¬(5 ≤ e ∧ e ≤ 12 ∧ other.occupied.testBit e = true)) :
    capture other e = other := by
  unfold capture
  rw [if_neg h]

/-- The capture phase, fired, bumps the pile, resets bit `e`, sets bit 0. -/
theorem capture_of_pos {other : Side} {e : Nat}
    (h : 5 ≤ e ∧ e ≤ 12 ∧ other.occupied.testBit e = true) :
    capture other e =
      { remaining := (other.remaining + 1) % 65536,
        occupied := (other.occupied &&& (0xFFFF ^^^ 2 ^ e)) ||| 1 } := by
  unfold capture
  rw [if_pos h]

/-- The place phase never changes the pile count. -/
theorem place_remaining (self : Side) (e : Nat) :
    (place self e).remaining = self.remaining := by
  unfold place
  split <;> rfl

/-- The pile count after picking up from the pile. -/
theorem pickUp_zero_remaining (self : Side) :
    (pickUp self 0).remaining = (self.remaining + 65535) % 65536 := by
  unfold pickUp
  rw [if_pos rfl]

/-- The pile count is untouched when picking up from the board. -/
theorem pickUp_pos_remaining {self : Side} {start : Nat} (h : ¬start = 0) :
    (pickUp self start).remaining = self.remaining := by
  unfold pickUp
  rw [if_neg h]

/-! ### The claims -/

/-- C1: the rosette-sanctuary claim fails on the code.  With the opponent on
the central rosette (bit 8 of `other.occupied`) and the mover on position 7,
`getOptions` with `steps = 1` still offers start 7, whose destination
`7 + 1 = 8` is the occupied rosette, and `apply` then captures the opponent's
piece on the rosette (the opponent side becomes `{8, {0}}`).  The mask of
ur.cpp line 100 clears option bit 8 instead of option bit `8 - steps`,
contradicting the source's own comments on lines 99 and 126. -/
theorem getOptions_allows_landing_on_occupied_rosette :
    (getOptions ⟨6, 2 ^ 7⟩ ⟨7, 2 ^ 8 + 1⟩ 1).testBit 7 = true ∧
      (7 : Nat) + 1 = 8 ∧
      Nat.testBit (2 ^ 8 + 1) 8 = true ∧
      (apply ⟨6, 2 ^ 7⟩ ⟨7, 2 ^ 8 + 1⟩ 7 1).2.1 = ⟨8, 1⟩ := by decide

/-- C2 (counterexample): the claim that `_verifySides` ignores simultaneous
occupancy of the central rosette cell 8 is false: with both occupancy sets
equal to `{8}` there is no shared middle-lane cell other than 8, yet
`_verifySides` returns `false`, because the mask `0x1FE0` of ur.cpp line 183
includes bit 8. -/
theorem verifySides_counterexample :
    ¬(_verifySides ⟨7, 2 ^ 8⟩ ⟨7, 2 ^ 8⟩ = true ↔
        noSharedMidExceptCentral ⟨7, 2 ^ 8⟩ ⟨7, 2 ^ 8⟩) := by decide

/-- C2 (amended): `_verifySides self other` returns true iff no shared
middle-lane position 5-12 — the central rosette cell 8 included — is
occupied by both sides simultaneously. -/
theorem verifySides_iff_no_shared_mid (self other : Side) :
    _verifySides self other = true ↔
      ∀ p ∈ Finset.Icc 5 12,
        ¬(self.occupied.testBit p = true ∧ other.occupied.testBit p = true) := by
  unfold _verifySides
  rw [beq_iff_eq]
  constructor
  · intro h p hp hcol
    rw [Finset.mem_Icc] at hp
    obtain ⟨hs, ho⟩ := hcol
    have hbit := congrArg (fun n => n.testBit p) h
    simp only [Nat.testBit_and, Nat.zero_testBit, testBit_1FE0] at hbit
    rw [hs, ho, decide_eq_true hp.1, decide_eq_true hp.2] at hbit
    simp at hbit
  · intro h
    apply Nat.eq_of_testBit_eq
    intro i
    simp only [Nat.testBit_and, Nat.zero_testBit, testBit_1FE0]
    by_cases hi : 5 ≤ i ∧ i ≤ 12
    · have hni := h i (Finset.mem_Icc.mpr hi)
      cases hsi : self.occupied.testBit i with
      | false => simp [hsi]
      | true =>
        cases hoi : other.occupied.testBit i with
        | false => simp [hoi]
        | true => exact absurd ⟨hsi, hoi⟩ hni
    · have hmask : (decide (5 ≤ i) && decide (i ≤ 12)) = false := by
        rcases Decidable.not_and_iff_or_not.mp hi with h5 | h12
        · simp [h5]
        · simp [h12]
      rw [hmask]
      simp

/-- C2 (witness): the amended equivalence applied to a concrete valid
state. -/
theorem verifySides_iff_no_shared_mid_witness :
    _verifySides ⟨7, 2 ^ 0⟩ ⟨7, 2 ^ 1⟩ = true :=
  (verifySides_iff_no_shared_mid ⟨7, 2 ^ 0⟩ ⟨7, 2 ^ 1⟩).mpr (by decide)

/-- C7: no self-collision — for all sides and `steps` in `[1,4]`, every
position `p` offered by `getOptions` has bit `p + steps` of the mover's own
occupancy clear, by the mask of ur.cpp line 98. -/
theorem getOptions_no_self_collision (self other : Side) (steps p : Nat)
    (hlo : 1 ≤ steps) (hhi : steps ≤ 4)
    (hp : (getOptions self other steps).testBit p = true) :
    self.occupied.testBit (p + steps) = false :=
  (mem_getOptions hp).2.1

/-- C7 (witness): the no-self-collision theorem at the initial state with a
roll of 4. -/
theorem getOptions_no_self_collision_witness :
    (⟨7, 1⟩ : Side).occupied.testBit (0 + 4) = false :=
  getOptions_no_self_collision ⟨7, 1⟩ ⟨7, 1⟩ 4 0 (by decide) (by decide) (by decide)

/-- C8: no overshoot — for all sides and `steps` in `[0,4]`, every position
`p` offered by `getOptions` satisfies `p + steps ≤ 15` (mask of ur.cpp line
102); and the rule does not exclude bearing off exactly, witnessed by
position 11 with a roll of 4 (`11 + 4 = 15`) being offered. -/
theorem getOptions_no_overshoot :
    (∀ (self other : Side) (steps p : Nat), steps ≤ 4 →
        (getOptions self other steps).testBit p = true → p + steps ≤ 15) ∧
      (getOptions ⟨6, 2 ^ 11⟩ ⟨7, 1⟩ 4).testBit 11 = true :=
  ⟨fun _ _ _ _ _ hp => (mem_getOptions hp).2.2.2, by decide⟩

/-- C8 (witness): the no-overshoot bound at a concrete legal move. -/
theorem getOptions_no_overshoot_witness : (3 : Nat) + 4 ≤ 15 :=
  getOptions_no_overshoot.1 ⟨6, 2 ^ 3⟩ ⟨7, 1⟩ 4 3 (by decide) (by decide)

/-- C9: the concrete entry scenario — from the initial state with a roll of
4, the option set is exactly `{0}` (the bitset value 1), and applying the
move from the pile yields `self = {6, {0, 4}}`, leaves the opponent
unchanged, and returns `true` (rosette at 4). -/
theorem entry_scenario :
    getOptions ⟨7, 1⟩ ⟨7, 1⟩ 4 = 1 ∧
      (apply ⟨7, 1⟩ ⟨7, 1⟩ 0 4).1 = ⟨6, 2 ^ 0 + 2 ^ 4⟩ ∧
      (apply ⟨7, 1⟩ ⟨7, 1⟩ 0 4).2.1 = ⟨7, 1⟩ ∧
      (apply ⟨7, 1⟩ ⟨7, 1⟩ 0 4).2.2 = true := by decide

/-- C6: rosette extra turn — for every pair of sides and every legal start,
`apply` returns `true` iff the destination `start + steps` is one of the
rosette cells 4, 8, 14 (ur.cpp line 134). -/
theorem apply_rosette_extra_turn (self other : Side) (start steps : Nat)
    (hleg : (getOptions self other steps).testBit start = true) :
    (apply self other start steps).2.2 = true ↔
      (start + steps = 4 ∨ start + steps = 8 ∨ start + steps = 14) := by
  obtain ⟨-, -, -, hend⟩ := mem_getOptions hleg
  have he : (start + steps) % 256 = start + steps := Nat.mod_eq_of_lt (by omega)
  simp [apply, he]
  tauto

/-- C6 (witness): the extra-turn signal at the concrete entry move onto the
rosette cell 4. -/
theorem apply_rosette_extra_turn_witness :
    (apply ⟨7, 1⟩ ⟨7, 1⟩ 0 4).2.2 = true :=
  (apply_rosette_extra_turn ⟨7, 1⟩ ⟨7, 1⟩ 0 4 (by decide)).mpr (Or.inl rfl)

/-- C10: frame property on the opponent — for every pair of sides, any
`start` in the `Position` range `[0,15]` and `steps` in the `Steps` range
`[0,4]`, if the capture guard of ur.cpp line 127 fails (the destination is
outside `[5,12]` or the opponent does not occupy it) then `apply` leaves the
opponent's side completely unchanged. -/
theorem apply_frame_other (self other : Side) (start steps : Nat)
    (hstart : start ≤ 15) (hsteps : steps ≤ 4)
    (h : ¬(5 ≤ start + steps ∧ start + steps ≤ 12 ∧
        other.occupied.testBit (start + steps) = true)) :
    (apply self other start steps).2.1 = other := by
  have he : (start + steps) % 256 = start + steps := Nat.mod_eq_of_lt (by omega)
  simp only [apply, he]
  exact capture_of_neg h

/-- C10 (witness): the opponent is untouched by a move landing on an empty
cell. -/
theorem apply_frame_other_witness :
    (apply ⟨7, 2 ^ 3 + 1⟩ ⟨7, 1⟩ 3 4).2.1 = ⟨7, 1⟩ :=
  apply_frame_other ⟨7, 2 ^ 3 + 1⟩ ⟨7, 1⟩ 3 4 (by decide) (by decide) (by decide)

/-- C3: capture correctness — for every legal move whose destination lies in
the shared lane `[5,12]`, is not the rosette cell 8, and is occupied by the
opponent, `apply` increments the opponent's pile count by exactly one,
clears the opponent's destination bit, and sets the opponent's pile-entry
bit 0 (ur.cpp lines 127-131).  The bound on `other.remaining` is the
`uint16_t` no-overflow condition; section 3 of the spec confines `remaining`
to `[0, TILES]`, far below it. -/
theorem apply_capture_correct (self other : Side) (start steps : Nat)
    (hleg : (getOptions self other steps).testBit start = true)
    (h5 : 5 ≤ start + steps) (h12 : start + steps ≤ 12)
    (h8 : start + steps ≠ 8)
    (hocc : other.occupied.testBit (start + steps) = true)
    (hrem : other.remaining < 65535) :
    (apply self other start steps).2.1.remaining = other.remaining + 1 ∧
      (apply self other start steps).2.1.occupied.testBit (start + steps) = false ∧
      (apply self other start steps).2.1.occupied.testBit 0 = true := by
  obtain ⟨-, -, -, hend⟩ := mem_getOptions hleg
  have he : (start + steps) % 256 = start + steps := Nat.mod_eq_of_lt (by omega)
  simp only [apply, he]
  rw [capture_of_pos ⟨h5, h12, hocc⟩]
  refine ⟨Nat.mod_eq_of_lt (by omega), ?_, ?_⟩
  · have h16 : start + steps < 16 := by omega
    rw [Nat.testBit_or, Nat.testBit_and, Nat.testBit_xor, testBit_FFFF,
      Nat.testBit_two_pow, testBit_one (by omega), decide_eq_true h16]
    simp
  · rw [Nat.testBit_or]
    simp [Nat.testBit_one_zero]

/-- C3 (witness): a concrete capture on cell 9 (self moves 5 to 9, the
opponent held 9). -/
theorem apply_capture_correct_witness :
    (apply ⟨6, 2 ^ 5 + 1⟩ ⟨6, 2 ^ 9 + 1⟩ 5 4).2.1.remaining = 6 + 1 ∧
      (apply ⟨6, 2 ^ 5 + 1⟩ ⟨6, 2 ^ 9 + 1⟩ 5 4).2.1.occupied.testBit (5 + 4) = false ∧
      (apply ⟨6, 2 ^ 5 + 1⟩ ⟨6, 2 ^ 9 + 1⟩ 5 4).2.1.occupied.testBit 0 = true :=
  apply_capture_correct ⟨6, 2 ^ 5 + 1⟩ ⟨6, 2 ^ 9 + 1⟩ 5 4 (by decide) (by decide)
    (by decide) (by decide) (by decide) (by decide)

/-- C5: cross-side invariant preservation — if no shared middle-lane
position 5-12 is occupied by both sides and a move legal per `getOptions` is
applied, the resulting state again has no shared middle-lane position
occupied by both sides (a landing on an occupied shared cell captures, the
capture range of ur.cpp line 127 covering the whole lane). -/
theorem apply_preserves_cross_invariant (self other : Side) (start steps : Nat)
    (hleg : (getOptions self other steps).testBit start = true)
    (hinv : ∀ p ∈ Finset.Icc 5 12,
      ¬(self.occupied.testBit p = true ∧ other.occupied.testBit p = true)) :
    ∀ p ∈ Finset.Icc 5 12,
      ¬((apply self other start steps).1.occupied.testBit p = true ∧
        (apply self other start steps).2.1.occupied.testBit p = true) := by
  obtain ⟨hs, hd, hp14, hend⟩ := mem_getOptions hleg
  have he : (start + steps) % 256 = start + steps := Nat.mod_eq_of_lt (by omega)
  intro p hp hcol
  rw [Finset.mem_Icc] at hp
  obtain ⟨hps, hpo⟩ := hcol
  simp only [apply, he] at hps hpo
  have hself : p = start + steps ∨ self.occupied.testBit p = true := by
    by_cases h15 : start + steps < 15
    · rw [place_occ h15] at hps
      cases hx : (pickUp self start).occupied.testBit p with
      | true => exact Or.inr (pickUp_occ_le hx)
      | false =>
        rw [hx, Bool.false_or] at hps
        exact Or.inl (of_decide_eq_true hps).symm
    · rw [place_of_ge h15] at hps
      exact Or.inr (pickUp_occ_le hps)
  by_cases hc : 5 ≤ start + steps ∧ start + steps ≤ 12 ∧
      other.occupied.testBit (start + steps) = true
  · rw [capture_of_pos hc] at hpo
    have hp16 : p < 16 := by omega
    rw [Nat.testBit_or, Nat.testBit_and, Nat.testBit_xor, testBit_FFFF,
      Nat.testBit_two_pow, testBit_one (by omega), decide_eq_true hp16,
      Bool.or_false, Bool.and_eq_true] at hpo
    obtain ⟨hop, hne⟩ := hpo
    have hnep : ¬(start + steps = p) := by
      cases hdq : decide (start + steps = p) with
      | false => exact of_decide_eq_false hdq
      | true => rw [hdq] at hne; simp at hne
    rcases hself with heq | hsp
    · exact hnep heq.symm
    · exact hinv p (Finset.mem_Icc.mpr hp) ⟨hsp, hop⟩
  · rw [capture_of_neg hc] at hpo
    rcases hself with heq | hsp
    · exact hc ⟨by omega, by omega, by rw [← heq]; exact hpo⟩
    · exact hinv p (Finset.mem_Icc.mpr hp) ⟨hsp, hpo⟩

/-- C5 (witness): the preserved invariant after a concrete capture on cell
9, read off at position 12. -/
theorem apply_preserves_cross_invariant_witness :
    ¬((apply ⟨6, 2 ^ 5 + 1⟩ ⟨6, 2 ^ 9 + 1⟩ 5 4).1.occupied.testBit 12 = true ∧
      (apply ⟨6, 2 ^ 5 + 1⟩ ⟨6, 2 ^ 9 + 1⟩ 5 4).2.1.occupied.testBit 12 = true) :=
  apply_preserves_cross_invariant ⟨6, 2 ^ 5 + 1⟩ ⟨6, 2 ^ 9 + 1⟩ 5 4 (by decide)
    (by decide) 12 (by decide)

/-- C4: conservation — if, for each side, the pile count plus the on-board
pieces (bits 1-14) plus the externally tracked finished count equals TILES
before a legal `apply`, the same equation holds for both sides afterwards,
where the mover's finished count grows by one exactly when the move ends at
position 15 and a captured piece returns to the opponent's pile.  The
`hsync` hypothesis is the bit-0 convention of section 3 of the spec (bit 0
of `occupied` is kept in sync with `remaining > 0`), without which the
`uint16_t` decrement of ur.cpp line 117 would wrap below zero. -/
theorem apply_conservation (self other : Side) (start steps fs fo : Nat)
    (hleg : (getOptions self other steps).testBit start = true)
    (hsync : self.occupied.testBit 0 = true → 0 < self.remaining)
    (hself : self.remaining + onBoard self.occupied + fs = TILES)
    (hother : other.remaining + onBoard other.occupied + fo = TILES) :
    (apply self other start steps).1.remaining +
        onBoard (apply self other start steps).1.occupied +
        (fs + (if start + steps = 15 then 1 else 0)) = TILES ∧
      (apply self other start steps).2.1.remaining +
        onBoard (apply self other start steps).2.1.occupied + fo = TILES := by
  obtain ⟨hs, hd, hp14, hend⟩ := mem_getOptions hleg
  have hstep1 : 1 ≤ steps := mem_getOptions_steps_pos hleg
  have he : (start + steps) % 256 = start + steps := Nat.mod_eq_of_lt (by omega)
  simp only [TILES] at hself hother ⊢
  have hde : (pickUp self start).occupied.testBit (start + steps) = false := by
    cases hx : (pickUp self start).occupied.testBit (start + steps) with
    | false => rfl
    | true => exact absurd (pickUp_occ_le hx) (by simp [hd])
  constructor
  · simp only [apply, he]
    by_cases h0 : start = 0
    · subst h0
      have hrpos : 0 < self.remaining := hsync hs
      have hrle : self.remaining ≤ 7 := by omega
      have hdec : (self.remaining + 65535) % 65536 = self.remaining - 1 := by
        omega
      by_cases h15 : 0 + steps < 15
      · have h2 : onBoard (place (pickUp self 0) (0 + steps)).occupied
            = onBoard (pickUp self 0).occupied + 1 := by
          unfold place
          rw [if_pos h15]
          dsimp only
          exact onBoard_or_two_pow (by omega) (by omega) hde
        rw [place_remaining, pickUp_zero_remaining, hdec, h2, pickUp_zero_onBoard,
          if_neg (by omega)]
        omega
      · rw [place_of_ge h15, pickUp_zero_remaining, hdec, pickUp_zero_onBoard,
          if_pos (by omega)]
        omega
    · have hstart1 : 1 ≤ start := by omega
      have h1 : onBoard (pickUp self start).occupied + 1 = onBoard self.occupied :=
        pickUp_pos_onBoard hstart1 hp14 hs
      by_cases h15 : start + steps < 15
      · have h2 : onBoard (place (pickUp self start) (start + steps)).occupied
            = onBoard (pickUp self start).occupied + 1 := by
          unfold place
          rw [if_pos h15]
          dsimp only
          exact onBoard_or_two_pow (by omega) (by omega) hde
        rw [place_remaining, pickUp_pos_remaining h0, h2, if_neg (by omega)]
        omega
      · rw [place_of_ge h15, pickUp_pos_remaining h0, if_pos (by omega)]
        omega
  · simp only [apply, he]
    by_cases hc : 5 ≤ start + steps ∧ start + steps ≤ 12 ∧
        other.occupied.testBit (start + steps) = true
    · rw [capture_of_pos hc]
      dsimp only
      have horle : other.remaining ≤ 7 := by omega
      have hor : onBoard ((other.occupied &&& (0xFFFF ^^^ 2 ^ (start + steps))) ||| 1)
          = onBoard (other.occupied &&& (0xFFFF ^^^ 2 ^ (start + steps))) :=
        onBoard_or_one _
      have hoe : onBoard (other.occupied &&& (0xFFFF ^^^ 2 ^ (start + steps))) + 1
          = onBoard other.occupied :=
        onBoard_reset_two_pow (by omega) (by omega) hc.2.2
      rw [hor]
      omega
    · rw [capture_of_neg hc]
      exact hother

/-- C4 (witness): conservation through the concrete entry move from the
initial state (pile 7 becomes 6, one piece appears on the board, none
finished). -/
theorem apply_conservation_witness :
    ((apply ⟨7, 1⟩ ⟨7, 1⟩ 0 4).1.remaining +
        onBoard (apply ⟨7, 1⟩ ⟨7, 1⟩ 0 4).1.occupied +
        (0 + (if (0 : Nat) + 4 = 15 then 1 else 0)) = TILES) ∧
      ((apply ⟨7, 1⟩ ⟨7, 1⟩ 0 4).2.1.remaining +
        onBoard (apply ⟨7, 1⟩ ⟨7, 1⟩ 0 4).2.1.occupied + 0 = TILES) :=
  apply_conservation ⟨7, 1⟩ ⟨7, 1⟩ 0 4 0 0 (by decide) (by decide) (by decide)
    (by decide)

end Ur
